import Mathlib

/-!
Verification development for the depasswd stateless password manager.

Rust strings are modelled as `List Char` together with their UTF-8 byte
sequences (`strBytes`); raw byte buffers are modelled as `List Nat` whose
elements are below 256 where it matters.  Fallible Rust functions returning
`Result`/`Option` are modelled as `Option`-valued Lean functions.
-/

/-- UTF-8 encoding of a single character (the standard 1–4 byte scheme). -/
def utf8EncodeChar (c : Char) : List Nat :=
  let n := c.toNat
  if n < 0x80 then [n]
  else if n < 0x800 then
    [0xC0 + (n / 64), 0x80 + (n % 64)]
  else if n < 0x10000 then
    [0xE0 + (n / 4096), 0x80 + ((n / 64) % 64), 0x80 + (n % 64)]
  else
    [0xF0 + (n / 262144), 0x80 + ((n / 4096) % 64), 0x80 + ((n / 64) % 64),
      0x80 + (n % 64)]

/-- The UTF-8 bytes of a Rust string (`str::as_bytes`). -/
def strBytes (s : List Char) : List Nat :=
  s.flatMap utf8EncodeChar

/-- The UTF-8 byte length of a Rust string (`str::len`). -/
def strLen (s : List Char) : Nat :=
  (strBytes s).length

/-- The ASCII bytes of the decimal representation of a number
(`usize::to_string` and friends). -/
def natDecBytes (n : Nat) : List Nat :=
  (Nat.toDigits 10 n).map Char.toNat

namespace Utils

/-- One byte rendered as `format!("\x7b:02x\x7d", b)`: two lowercase,
zero-padded hex digit bytes (for `b < 256`). -/
def byteToHexDigits (b : Nat) : List Nat :=
  [(Nat.digitChar (b / 16)).toNat, (Nat.digitChar (b % 16)).toNat]

/-- `Utils::bytes_to_hex`, producing the ASCII bytes of the hex string. -/
def bytes_to_hex (b : List Nat) : List Nat :=
  (b.map byteToHexDigits).flatten

/-- Value of an ASCII hex digit byte, as accepted by `char::to_digit(16)`. -/
def hexDigitVal (b : Nat) : Option Nat :=
  if 0x30 ≤ b ∧ b ≤ 0x39 then some (b - 0x30)
  else if 0x61 ≤ b ∧ b ≤ 0x66 then some (b - 0x61 + 10)
  else if 0x41 ≤ b ∧ b ≤ 0x46 then some (b - 0x41 + 10)
  else none

/-- Digit-accumulation loop of `u8::from_str_radix(_, 16)` on the positive
path, with the `u8` overflow check. -/
def parseU8Pos : List Nat → Nat → Option Nat
  | [], acc => some acc
  | d :: rest, acc =>
    match hexDigitVal d with
    | none => none
    | some v =>
      if acc * 16 + v ≤ 255 then parseU8Pos rest (acc * 16 + v) else none

/-- `u8::from_str_radix(s, 16)` on the UTF-8 bytes of `s`: an optional
leading `+` is stripped (a `-` is not, `u8` being unsigned, so a leading
`-` then fails as a digit), followed by a non-empty run of base-16 digits,
with overflow checks. -/
def u8FromStrRadix16 (s : List Nat) : Option Nat :=
  match s with
  | [] => none
  | b :: rest =>
    if b = 0x2B then
      match rest with
      | [] => none
      | _ => parseU8Pos rest 0
    else parseU8Pos s 0

/-- `str::is_char_boundary` on the UTF-8 bytes: the index is the length, or
the byte there is not a continuation byte. -/
def isCharBoundary (s : List Nat) (i : Nat) : Bool :=
  if i = s.length then true
  else
    match s.get? i with
    | some b => decide (b < 0x80 ∨ 0xC0 ≤ b)
    | none => false

/-- `str::get(i..j)` on the UTF-8 bytes: the sub-slice when both ends are
in range and on character boundaries, `none` otherwise. -/
def strGet (s : List Nat) (i j : Nat) : Option (List Nat) :=
  if i ≤ j ∧ j ≤ s.length ∧ isCharBoundary s i ∧ isCharBoundary s j then
    some ((s.drop i).take (j - i))
  else none

/-- Option-collecting traversal, modelling both `collect::<Option<Vec<_>>>()`
and a `for` loop that pushes fallible results, with early exit on failure. -/
def optTraverse {α : Type} (f : Nat → Option α) : List Nat → Option (List α)
  | [] => some []
  | i :: rest =>
    match f i, optTraverse f rest with
    | some v, some vs => some (v :: vs)
    | _, _ => none

/-- `Utils::hex_to_bytes` on the UTF-8 bytes of the input string: if the
byte length is even, parse each 2-byte window `s.get(i..i+2)` (stepping by
2) with `u8::from_str_radix(_, 16)`, collecting into an optional vector. -/
def hex_to_bytes (s : List Nat) : Option (List Nat) :=
  if s.length % 2 = 0 then
    optTraverse (fun k => (strGet s (2 * k) (2 * k + 2)).bind u8FromStrRadix16)
      (List.range (s.length / 2))
  else none

end Utils

/-! ### Base64 (standard alphabet, no padding)

Models `base64::prelude::BASE64_STANDARD_NO_PAD.encode`, producing the
ASCII bytes of the encoded string. -/

/-- The byte of the standard base64 alphabet character at index `n < 64`. -/
def b64Char (n : Nat) : Nat :=
  if n < 26 then 65 + n
  else if n < 52 then 97 + (n - 26)
  else if n < 62 then 48 + (n - 52)
  else if n = 62 then 43
  else 47

/-- Standard base64 encoding without padding, over byte lists. -/
def base64NoPad : List Nat → List Nat
  | [] => []
  | [a] => [b64Char (a / 4), b64Char ((a % 4) * 16)]
  | [a, b] =>
    [b64Char (a / 4), b64Char ((a % 4) * 16 + b / 16), b64Char ((b % 16) * 4)]
  | a :: b :: c :: rest =>
    b64Char (a / 4) :: b64Char ((a % 4) * 16 + b / 16) ::
      b64Char ((b % 16) * 4 + c / 64) :: b64Char (c % 64) :: base64NoPad rest

/-! ### SHA-512 and HMAC-SHA-512

Models the `sha2`/`hmac` crates used by `ServiceSecret::new` (FIPS 180-4
SHA-512 and RFC 2104 HMAC), with 64-bit words as `Nat % 2^64`. -/

/-- Truncation to a 64-bit word. -/
def w64 (n : Nat) : Nat := n % 18446744073709551616

/-- 64-bit modular addition. -/
def add64 (a b : Nat) : Nat := w64 (a + b)

/-- 64-bit right-rotation of `x` (assumed `< 2^64`) by `n ≤ 64` bits. -/
def rotr64 (x n : Nat) : Nat := w64 (x / 2 ^ n + x * 2 ^ (64 - n))

/-- Bitwise complement within 64 bits. -/
def not64 (x : Nat) : Nat := 18446744073709551615 ^^^ x

/-- The SHA-512 round constants (decimal, FIPS 180-4 section 4.2.3). -/
def sha512K : List Nat :=
  [4794697086780616226, 8158064640168781261, 13096744586834688815,
    16840607885511220156, 4131703408338449720, 6480981068601479193,
    10538285296894168987, 12329834152419229976, 15566598209576043074,
    1334009975649890238, 2608012711638119052, 6128411473006802146,
    8268148722764581231, 9286055187155687089, 11230858885718282805,
    13951009754708518548, 16472876342353939154, 17275323862435702243,
    1135362057144423861, 2597628984639134821, 3308224258029322869,
    5365058923640841347, 6679025012923562964, 8573033837759648693,
    10970295158949994411, 12119686244451234320, 12683024718118986047,
    13788192230050041572, 14330467153632333762, 15395433587784984357,
    489312712824947311, 1452737877330783856, 2861767655752347644,
    3322285676063803686, 5560940570517711597, 5996557281743188959,
    7280758554555802590, 8532644243296465576, 9350256976987008742,
    10552545826968843579, 11727347734174303076, 12113106623233404929,
    14000437183269869457, 14369950271660146224, 15101387698204529176,
    15463397548674623760, 17586052441742319658, 1182934255886127544,
    1847814050463011016, 2177327727835720531, 2830643537854262169,
    3796741975233480872, 4115178125766777443, 5681478168544905931,
    6601373596472566643, 7507060721942968483, 8399075790359081724,
    8693463985226723168, 9568029438360202098, 10144078919501101548,
    10430055236837252648, 11840083180663258601, 13761210420658862357,
    14299343276471374635, 14566680578165727644, 15097957966210449927,
    16922976911328602910, 17689382322260857208, 500013540394364858,
    748580250866718886, 1242879168328830382, 1977374033974150939,
    2944078676154940804, 3659926193048069267, 4368137639120453308,
    4836135668995329356, 5532061633213252278, 6448918945643986474,
    6902733635092675308, 7801388544844847127]

/-- The eight 64-bit working variables of SHA-512. -/
structure Sha512State where
  va : Nat
  vb : Nat
  vc : Nat
  vd : Nat
  ve : Nat
  vf : Nat
  vg : Nat
  vh : Nat
deriving Repr, DecidableEq

/-- The SHA-512 initial hash value (decimal, FIPS 180-4 section 5.3.5). -/
def sha512Init : Sha512State :=
  ⟨7640891576956012808, 13503953896175478587,
    4354685564936845355, 11912009170470909681,
    5840696475078001361, 11170449401992604703,
    2270897969802886507, 6620516959819538809⟩

/-- Big-endian bytes (`len` of them) of a number. -/
def natToBytesBE (len n : Nat) : List Nat :=
  (List.range len).map (fun i => n / 2 ^ (8 * (len - 1 - i)) % 256)

/-- Group a byte list into big-endian 64-bit words (8 bytes each). -/
def toWords64 : List Nat → List Nat
  | b0 :: b1 :: b2 :: b3 :: b4 :: b5 :: b6 :: b7 :: rest =>
    (((((((b0 * 256 + b1) * 256 + b2) * 256 + b3) * 256 + b4) * 256 + b5) * 256
        + b6) * 256 + b7) :: toWords64 rest
  | _ => []

/-- One message-schedule extension step: append
`σ1(w[n−2]) + w[n−7] + σ0(w[n−15]) + w[n−16]`. -/
def sha512ExtendStep (ws : List Nat) : List Nat :=
  let n := ws.length
  let w15 := ws.getD (n - 15) 0
  let w2 := ws.getD (n - 2) 0
  let s0 := (rotr64 w15 1) ^^^ (rotr64 w15 8) ^^^ (w15 / 2 ^ 7)
  let s1 := (rotr64 w2 19) ^^^ (rotr64 w2 61) ^^^ (w2 / 2 ^ 6)
  ws ++ [add64 (add64 (ws.getD (n - 16) 0) s0) (add64 (ws.getD (n - 7) 0) s1)]

/-- The 80-word SHA-512 message schedule of one 128-byte block. -/
def sha512Schedule (block : List Nat) : List Nat :=
  (List.range 64).foldl (fun ws _ => sha512ExtendStep ws) (toWords64 block)

/-- One SHA-512 compression round for a round constant/schedule word pair. -/
def sha512Round (st : Sha512State) (kw : Nat × Nat) : Sha512State :=
  let e := st.ve
  let s1 := (rotr64 e 14) ^^^ (rotr64 e 18) ^^^ (rotr64 e 41)
  let ch := (e &&& st.vf) ^^^ (not64 e &&& st.vg)
  let t1 := add64 (add64 st.vh s1) (add64 (add64 ch kw.1) kw.2)
  let a := st.va
  let s0 := (rotr64 a 28) ^^^ (rotr64 a 34) ^^^ (rotr64 a 39)
  let mj := (a &&& st.vb) ^^^ (a &&& st.vc) ^^^ (st.vb &&& st.vc)
  let t2 := add64 s0 mj
  ⟨add64 t1 t2, st.va, st.vb, st.vc, add64 st.vd t1, st.ve, st.vf, st.vg⟩

/-- SHA-512 compression of one 128-byte block into the chaining state. -/
def sha512Compress (st : Sha512State) (block : List Nat) : Sha512State :=
  let t := (sha512K.zip (sha512Schedule block)).foldl sha512Round st
  ⟨add64 st.va t.va, add64 st.vb t.vb, add64 st.vc t.vc, add64 st.vd t.vd,
    add64 st.ve t.ve, add64 st.vf t.vf, add64 st.vg t.vg, add64 st.vh t.vh⟩

/-- SHA-512 padding: `0x80`, zeros, and the 16-byte big-endian bit length,
to a multiple of 128 bytes. -/
def sha512Pad (msg : List Nat) : List Nat :=
  msg ++ [0x80] ++ List.replicate ((128 - (msg.length + 17) % 128) % 128) 0
    ++ natToBytesBE 16 (8 * msg.length)

/-- Split a byte list into 128-byte blocks (`fuel`-driven structural
recursion; called with fuel ≥ the number of blocks). -/
def chunks128 : Nat → List Nat → List (List Nat)
  | 0, _ => []
  | _, [] => []
  | fuel + 1, l => l.take 128 :: chunks128 fuel (l.drop 128)

/-- The 64 digest bytes of a SHA-512 state. -/
def sha512StateBytes (st : Sha512State) : List Nat :=
  natToBytesBE 8 st.va ++ natToBytesBE 8 st.vb ++ natToBytesBE 8 st.vc ++
    natToBytesBE 8 st.vd ++ natToBytesBE 8 st.ve ++ natToBytesBE 8 st.vf ++
    natToBytesBE 8 st.vg ++ natToBytesBE 8 st.vh

/-- SHA-512 of a byte list. -/
def sha512 (msg : List Nat) : List Nat :=
  let padded := sha512Pad msg
  sha512StateBytes ((chunks128 padded.length padded).foldl sha512Compress sha512Init)

/-- RFC 2104 HMAC-SHA-512 (block size 128): keys longer than a block are
hashed first, then zero-padded; inner pad `0x36`, outer pad `0x5c`. -/
def hmacSha512 (key msg : List Nat) : List Nat :=
  let k0 := if 128 < key.length then sha512 key else key
  let kp := k0 ++ List.replicate (128 - k0.length) 0
  sha512 ((kp.map (fun b => b ^^^ 0x5c)) ++
    sha512 ((kp.map (fun b => b ^^^ 0x36)) ++ msg))

/-! ### Preset alphabets (`lib.rs`) -/

/-- The 26 lowercase letters (`SMALL_LETTERS`). -/
def SMALL_LETTERS : List Char := "abcdefghijklmnopqrstuvwxyz".toList

/-- The 10 decimal digits (`NUMBERS`). -/
def NUMBERS : List Char := "0123456789".toList

/-- The 26 uppercase letters (`CAPITAL_LETTERS`). -/
def CAPITAL_LETTERS : List Char := "ABCDEFGHIJKLMNOPQRSTUVWXYZ".toList

/-- The 32 ASCII punctuation characters (`SPECIAL_CHARS`). -/
def SPECIAL_CHARS : List Char :=
  "!\"#$%&".toList ++ [Char.ofNat 39] ++ "()*+,-./:;<=>?@[\\]^_`".toList ++
    "\x7b|\x7d~".toList

namespace CharSet

/-- The preset table built by `CharSet::try_from` (a `HashMap` keyed by
`0..=3`); lookup of any other index fails. -/
def presetOf (v : Nat) : Option (List Char) :=
  if v = 0 then some SMALL_LETTERS
  else if v = 1 then some CAPITAL_LETTERS
  else if v = 2 then some NUMBERS
  else if v = 3 then some SPECIAL_CHARS
  else none

/-- The concatenation loop of `CharSet::try_from`: append the preset of each
index in order, failing on the first unknown index. -/
def tryFromAux : List Nat → Option (List Char)
  | [] => some []
  | v :: rest =>
    match presetOf v, tryFromAux rest with
    | some block, some cs => some (block ++ cs)
    | _, _ => none

/-- `CharSet::try_from(&[usize])`: concatenate the selected presets in the
given order (duplicates kept); fail on an unknown index or when the
resulting alphabet is empty. -/
def try_from (value : List Nat) : Option (List Char) :=
  (tryFromAux value).bind (fun cs => if cs = [] then none else some cs)

end CharSet

namespace DerivedPass

/-- `DerivedPass::get_password_char`: index `secret_byte % char_pool.len()`
(byte length of the alphabet string) into the character sequence of the
alphabet, `none` on the `CharError` branch. -/
def get_password_char (char_pool : List Char) (secret_byte : Nat) : Option Char :=
  char_pool.get? (secret_byte % strLen char_pool)

/-- `DerivedPass::new`: reject a service secret shorter than the requested
length, then map each of the first `password_length` secret bytes to a
character of the alphabet. -/
def new (service_secret : List Nat) (char_set : List Char)
    (password_length : Nat) : Option (List Char) :=
  if service_secret.length < password_length then none
  else
    Utils.optTraverse
      (fun i => (service_secret.get? i).bind (get_password_char char_set))
      (List.range password_length)

end DerivedPass

namespace MasterSecret

/-- The type of the external Argon2 primitive (`argon2` crate), as a
function of algorithm version, memory cost (KiB), time cost, parallelism,
output tag length, password bytes and PHC salt-string bytes.
Modelled from the spec: the KDF itself is outside the repository; the spec
fixes only how it is invoked (§4.1). -/
def Argon2Fun : Type :=
  Nat → Nat → Nat → Nat → Nat → List Nat → List Nat → List Nat

/-- `MasterSecret::new`: the PHC salt string is
`BASE64_STANDARD_NO_PAD.encode(user_id.len().to_string() + user_id)`; the
password is hashed with Argon2id v0x13, m = 32·1024 KiB, t = 4, p = 4 and
the default 32-byte tag.
Modelled from the spec: `SaltString::from_b64` and `hash_password` belong
to external crates; per §4.1 the salt string is passed through to Argon2id
as emitted, and no failure of this step is described. -/
def new (argon2 : Argon2Fun) (user_id master_password_plain : List Char) :
    Option (List Nat) :=
  let salt := base64NoPad (natDecBytes (strLen user_id) ++ strBytes user_id)
  some (argon2 19 (32 * 1024) 4 4 32 (strBytes master_password_plain) salt)

/-- `MasterSecret::from_str`: accept exactly a 64-byte string that parses
as hex. -/
def from_str (s : List Nat) : Option (List Nat) :=
  if s.length = 64 then Utils.hex_to_bytes s else none

end MasterSecret

namespace ServiceSecret

/-- `ServiceSecret::new`: HMAC-SHA-512 keyed with the ASCII bytes of the
lowercase hex encoding of the master secret, over the ASCII bytes of
`BASE64_STANDARD_NO_PAD.encode(service_id.len().to_string() + service_id
+ password_length.to_string() + generation.to_string())`. -/
def new (master_secret : List Nat) (service_id : List Char)
    (generation password_length : Nat) : Option (List Nat) :=
  let salt := base64NoPad (natDecBytes (strLen service_id) ++
    strBytes service_id ++ natDecBytes password_length ++ natDecBytes generation)
  some (hmacSha512 (Utils.bytes_to_hex master_secret) salt)

/-- `ServiceSecret::from_str`: accept exactly a 128-byte string that parses
as hex. -/
def from_str (s : List Nat) : Option (List Nat) :=
  if s.length = 128 then Utils.hex_to_bytes s else none

end ServiceSecret

/-- The six validated inputs exposed by a `UserInputProvider`. -/
structure UserInput where
  user_id : List Char
  master_password_plain : List Char
  service_id : List Char
  generation : Nat
  char_set : List Char
  password_length : Nat

namespace DerivePassRunner

/-- `DerivePassRunner::run`: MasterSecret → ServiceSecret → DerivedPass. -/
def run (argon2 : MasterSecret.Argon2Fun) (ui : UserInput) :
    Option (List Char) :=
  (MasterSecret.new argon2 ui.user_id ui.master_password_plain).bind fun ms =>
    (ServiceSecret.new ms ui.service_id ui.generation ui.password_length).bind
      fun ss => DerivedPass.new ss ui.char_set ui.password_length

end DerivePassRunner

/-! ### Helper lemmas: ASCII strings -/

/-- A character list whose characters are all ASCII. -/
def AsciiOnly (cs : List Char) : Prop := ∀ c ∈ cs, c.toNat < 128

instance asciiOnlyDecidable (cs : List Char) : Decidable (AsciiOnly cs) :=
  List.decidableBAll _ cs

theorem utf8EncodeChar_ascii {c : Char} (h : c.toNat < 128) :
    utf8EncodeChar c = [c.toNat] := by
  simp [utf8EncodeChar, h]

theorem strBytes_ascii {cs : List Char} (h : AsciiOnly cs) :
    strBytes cs = cs.map Char.toNat := by
  induction cs with
  | nil => rfl
  | cons c rest ih =>
    have hc : c.toNat < 128 := h c (List.mem_cons_self c rest)
    have hr : AsciiOnly rest := fun x hx => h x (List.mem_cons_of_mem c hx)
    simp [strBytes, utf8EncodeChar_ascii hc] at *
    exact ih hr

theorem strLen_ascii {cs : List Char} (h : AsciiOnly cs) :
    strLen cs = cs.length := by
  simp [strLen, strBytes_ascii h]

/-! ### Helper lemmas: `optTraverse` -/

namespace Utils

theorem optTraverse_congr {α : Type} {f g : Nat → Option α} :
    ∀ {l : List Nat}, (∀ a ∈ l, f a = g a) → optTraverse f l = optTraverse g l
  | [], _ => rfl
  | i :: rest, h => by
    have hi := h i (List.mem_cons_self i rest)
    have hr := optTraverse_congr (f := f) (g := g)
      (fun a ha => h a (List.mem_cons_of_mem i ha))
    simp [optTraverse, hi, hr]

theorem optTraverse_map {α : Type} (f : Nat → Option α) (g : Nat → α) :
    ∀ l : List Nat, (∀ a ∈ l, f a = some (g a)) →
      optTraverse f l = some (l.map g)
  | [], _ => rfl
  | i :: rest, h => by
    have hi := h i (List.mem_cons_self i rest)
    have hr := optTraverse_map f g rest
      (fun a ha => h a (List.mem_cons_of_mem i ha))
    simp [optTraverse, hi, hr]

theorem optTraverse_some_length {α : Type} {f : Nat → Option α} :
    ∀ {l : List Nat} {r : List α}, optTraverse f l = some r →
      r.length = l.length
  | [], r, h => by simp [optTraverse] at h; simp [← h]
  | i :: rest, r, h => by
    simp only [optTraverse] at h
    cases hfi : f i with
    | none => simp [hfi] at h
    | some v =>
      cases hrest : optTraverse f rest with
      | none => simp [hfi, hrest] at h
      | some vs =>
        simp [hfi, hrest] at h
        have := optTraverse_some_length (f := f) hrest
        simp [← h, this]

theorem optTraverse_some_get? {α : Type} {f : Nat → Option α} :
    ∀ {l : List Nat} {r : List α}, optTraverse f l = some r →
      ∀ k, r.get? k = (l.get? k).bind f
  | [], r, h, k => by
    simp [optTraverse] at h
    subst h
    simp
  | i :: rest, r, h, k => by
    simp only [optTraverse] at h
    cases hfi : f i with
    | none => simp [hfi] at h
    | some v =>
      cases hrest : optTraverse f rest with
      | none => simp [hfi, hrest] at h
      | some vs =>
        simp [hfi, hrest] at h
        cases k with
        | zero => simp [← h, hfi]
        | succ k => simpa [← h] using optTraverse_some_get? hrest k

theorem optTraverse_isSome_iff {α : Type} {f : Nat → Option α} :
    ∀ {l : List Nat}, (optTraverse f l).isSome = true ↔
      ∀ a ∈ l, (f a).isSome = true
  | [] => by simp [optTraverse]
  | i :: rest => by
    constructor
    · intro h a ha
      simp only [optTraverse] at h
      cases hfi : f i with
      | none => simp [hfi] at h
      | some v =>
        cases hrest : optTraverse f rest with
        | none => simp [hfi, hrest] at h
        | some vs =>
          rcases List.mem_cons.mp ha with rfl | ha
          · simp [hfi]
          · exact (optTraverse_isSome_iff).mp (by simp [hrest]) a ha
    · intro h
      have hi := h i (List.mem_cons_self i rest)
      have hr := (optTraverse_isSome_iff (l := rest)).mpr
        (fun a ha => h a (List.mem_cons_of_mem i ha))
      rcases Option.isSome_iff_exists.mp hi with ⟨v, hv⟩
      rcases Option.isSome_iff_exists.mp hr with ⟨vs, hvs⟩
      simp [optTraverse, hv, hvs]

theorem optTraverse_eq_some_of {α : Type} {f : Nat → Option α} :
    ∀ {l : List Nat} {r : List α}, r.length = l.length →
      (∀ k, k < l.length → (l.get? k).bind f = r.get? k) →
      optTraverse f l = some r
  | [], [], _, _ => rfl
  | [], _ :: _, hlen, _ => by simp at hlen
  | _ :: _, [], hlen, _ => by simp at hlen
  | i :: rest, v :: vs, hlen, h => by
    have h0 := h 0 (by simp)
    simp at h0
    have hr := optTraverse_eq_some_of (f := f) (l := rest) (r := vs)
      (by simpa using hlen)
      (fun k hk => by simpa using h (k + 1) (by simpa using hk))
    simp [optTraverse, h0, hr]

theorem optTraverse_map_comp {α : Type} (f : Nat → Option α) (g : Nat → Nat) :
    ∀ l : List Nat, optTraverse f (l.map g) = optTraverse (fun x => f (g x)) l
  | [] => rfl
  | i :: rest => by
    simp [optTraverse, optTraverse_map_comp f g rest]

end Utils

/-! ### Helper lemmas: hex codec -/

namespace Utils

/-- A byte that is a lowercase hex digit character. -/
def LowerHexByte (x : Nat) : Prop :=
  (48 ≤ x ∧ x ≤ 57) ∨ (97 ≤ x ∧ x ≤ 102)

theorem digitChar_lower : ∀ d, d < 16 → LowerHexByte (Nat.digitChar d).toNat := by
  unfold LowerHexByte
  decide

theorem hexDigitVal_digitChar : ∀ d, d < 16 →
    hexDigitVal (Nat.digitChar d).toNat = some d := by
  decide

theorem byteToHexDigits_lower {b : Nat} (h : b < 256) :
    ∀ x ∈ byteToHexDigits b, LowerHexByte x := by
  intro x hx
  have h1 : b / 16 < 16 := Nat.div_lt_of_lt_mul (by omega)
  have h2 : b % 16 < 16 := Nat.mod_lt _ (by omega)
  simp [byteToHexDigits] at hx
  rcases hx with rfl | rfl
  · exact digitChar_lower _ h1
  · exact digitChar_lower _ h2

theorem lowerHexByte_ascii {x : Nat} (h : LowerHexByte x) : x < 128 := by
  rcases h with ⟨_, h2⟩ | ⟨_, h2⟩ <;> omega

theorem parse_byteToHexDigits : ∀ b, b < 256 →
    u8FromStrRadix16 (byteToHexDigits b) = some b := by
  intro b h
  have h1 : b / 16 < 16 := by omega
  have h2 : b % 16 < 16 := Nat.mod_lt _ (by omega)
  have hne1 := digitChar_lower _ h1
  have d1 := hexDigitVal_digitChar _ h1
  have d2 := hexDigitVal_digitChar _ h2
  have hne43 : (Nat.digitChar (b / 16)).toNat ≠ 43 := by
    rcases hne1 with ⟨ha, hb⟩ | ⟨ha, hb⟩ <;> omega
  have hval : b / 16 * 16 + b % 16 = b := by omega
  simp [byteToHexDigits, u8FromStrRadix16, hne43, parseU8Pos, d1, d2,
    hval, Nat.le_of_lt_succ]
  omega

theorem bytes_to_hex_cons (x : Nat) (l : List Nat) :
    bytes_to_hex (x :: l) = byteToHexDigits x ++ bytes_to_hex l := by
  simp [bytes_to_hex]

theorem bytes_to_hex_length : ∀ l : List Nat,
    (bytes_to_hex l).length = 2 * l.length
  | [] => rfl
  | x :: t => by
    simp [bytes_to_hex_cons, byteToHexDigits, bytes_to_hex_length t]
    omega

theorem bytes_to_hex_lower : ∀ {l : List Nat}, (∀ x ∈ l, x < 256) →
    ∀ y ∈ bytes_to_hex l, LowerHexByte y
  | [], _, y, hy => by simp [bytes_to_hex] at hy
  | x :: t, h, y, hy => by
    rw [bytes_to_hex_cons] at hy
    rcases List.mem_append.mp hy with hy | hy
    · exact byteToHexDigits_lower (h x (List.mem_cons_self x t)) y hy
    · exact bytes_to_hex_lower (fun a ha => h a (List.mem_cons_of_mem x ha)) y hy

theorem isCharBoundary_of_ascii {s : List Nat} (hs : ∀ x ∈ s, x < 128)
    {i : Nat} (hi : i ≤ s.length) : isCharBoundary s i = true := by
  unfold isCharBoundary
  rcases Nat.lt_or_ge i s.length with hlt | hge
  · have hget : s.get? i = some (s.get ⟨i, hlt⟩) := List.get?_eq_get hlt
    rw [if_neg (by omega), hget]
    simp
    left
    exact hs _ (List.get_mem s i hlt)
  · rw [if_pos (by omega)]

theorem strGet_of_ascii {s : List Nat} (hs : ∀ x ∈ s, x < 128)
    {i j : Nat} (hij : i ≤ j) (hj : j ≤ s.length) :
    strGet s i j = some ((s.drop i).take (j - i)) := by
  unfold strGet
  rw [if_pos]
  exact ⟨hij, hj, isCharBoundary_of_ascii hs (le_trans hij hj),
    isCharBoundary_of_ascii hs hj⟩

theorem isCharBoundary_shift2 (x y : Nat) (s : List Nat) (i : Nat) :
    isCharBoundary (x :: y :: s) (i + 2) = isCharBoundary s i := by
  unfold isCharBoundary
  simp [Nat.add_right_cancel_iff]

theorem strGet_shift2 (x y : Nat) (s : List Nat) (i j : Nat) :
    strGet (x :: y :: s) (i + 2) (j + 2) = strGet s i j := by
  unfold strGet
  rw [isCharBoundary_shift2, isCharBoundary_shift2]
  by_cases h : i ≤ j ∧ j ≤ s.length ∧ isCharBoundary s i = true ∧
      isCharBoundary s j = true
  · obtain ⟨h1, h2, h3, h4⟩ := h
    rw [if_pos ⟨by omega, by simpa using h2, h3, h4⟩, if_pos ⟨h1, h2, h3, h4⟩]
    simp [Nat.add_sub_add_right]
  · rw [if_neg, if_neg h]
    intro ⟨h1, h2, h3, h4⟩
    exact h ⟨by omega, by simpa using h2, h3, h4⟩

end Utils

namespace Utils

theorem hex_to_bytes_some_length {s l : List Nat}
    (h : hex_to_bytes s = some l) : l.length = s.length / 2 := by
  unfold hex_to_bytes at h
  by_cases he : s.length % 2 = 0
  · rw [if_pos he] at h
    simpa using optTraverse_some_length h
  · rw [if_neg he] at h
    exact absurd h (by simp)

theorem hex_roundtrip : ∀ {l : List Nat}, (∀ x ∈ l, x < 256) →
    hex_to_bytes (bytes_to_hex l) = some l
  | [], _ => by decide
  | x :: t, h => by
    have hx : x < 256 := h x (List.mem_cons_self x t)
    have ht : ∀ a ∈ t, a < 256 := fun a ha => h a (List.mem_cons_of_mem x ha)
    have ih := hex_roundtrip ht
    have hlen : (bytes_to_hex (x :: t)).length = 2 * t.length + 2 := by
      rw [bytes_to_hex_length]
      simp
      omega
    have hascii : ∀ y ∈ bytes_to_hex (x :: t), y < 128 :=
      fun y hy => lowerHexByte_ascii (bytes_to_hex_lower h y hy)
    have hstruct : bytes_to_hex (x :: t) =
        (Nat.digitChar (x / 16)).toNat :: (Nat.digitChar (x % 16)).toNat ::
          bytes_to_hex t := by
      simp [bytes_to_hex_cons, byteToHexDigits]
    have hf0 : (strGet (bytes_to_hex (x :: t)) 0 2).bind u8FromStrRadix16 =
        some x := by
      rw [strGet_of_ascii hascii (by omega) (by omega), hstruct]
      simpa [byteToHexDigits] using parse_byteToHexDigits x hx
    have hshift : ∀ k,
        (strGet (bytes_to_hex (x :: t)) (2 * (k + 1)) (2 * (k + 1) + 2)).bind
            u8FromStrRadix16 =
          (strGet (bytes_to_hex t) (2 * k) (2 * k + 2)).bind u8FromStrRadix16 := by
      intro k
      have h1 : 2 * (k + 1) = 2 * k + 2 := by omega
      rw [hstruct, h1]
      rw [strGet_shift2]
    have ih' : optTraverse
        (fun k => (strGet (bytes_to_hex t) (2 * k) (2 * k + 2)).bind
          u8FromStrRadix16) (List.range t.length) = some t := by
      unfold hex_to_bytes at ih
      rw [bytes_to_hex_length, if_pos (by omega),
        show 2 * t.length / 2 = t.length from by omega] at ih
      exact ih
    have hrest : optTraverse
        (fun k => (strGet (bytes_to_hex (x :: t)) (2 * k) (2 * k + 2)).bind
          u8FromStrRadix16) ((List.range t.length).map Nat.succ) = some t := by
      rw [optTraverse_map_comp]
      exact (optTraverse_congr
        (fun a _ => by simpa [Nat.succ_eq_add_one] using hshift a)).trans ih'
    unfold hex_to_bytes
    rw [hlen, if_pos (by omega),
      show (2 * t.length + 2) / 2 = t.length + 1 from by omega,
      List.range_succ_eq_map]
    simp only [optTraverse, hrest]
    rw [show ((strGet (bytes_to_hex (x :: t)) 0 2).bind fun a =>
      u8FromStrRadix16 a) = some x from hf0]

end Utils

/-! ### Helper lemmas: digest lengths -/

theorem natToBytesBE_length (len n : Nat) : (natToBytesBE len n).length = len := by
  simp [natToBytesBE]

theorem sha512StateBytes_length (st : Sha512State) :
    (sha512StateBytes st).length = 64 := by
  simp [sha512StateBytes, natToBytesBE_length]

theorem sha512_length (msg : List Nat) : (sha512 msg).length = 64 :=
  sha512StateBytes_length _

theorem hmacSha512_length (key msg : List Nat) :
    (hmacSha512 key msg).length = 64 :=
  sha512_length _

/-! ### Helper lemmas: character sets -/

namespace CharSet

theorem presetOf_ascii {v : Nat} {block : List Char}
    (h : presetOf v = some block) : AsciiOnly block := by
  unfold presetOf at h
  split at h
  · cases h; decide
  · split at h
    · cases h; decide
    · split at h
      · cases h; decide
      · split at h
        · cases h; decide
        · cases h

theorem presetOf_ne_nil {v : Nat} {block : List Char}
    (h : presetOf v = some block) : block ≠ [] := by
  unfold presetOf at h
  split at h
  · cases h; decide
  · split at h
    · cases h; decide
    · split at h
      · cases h; decide
      · split at h
        · cases h; decide
        · cases h

theorem tryFromAux_ascii : ∀ {l : List Nat} {cs : List Char},
    tryFromAux l = some cs → AsciiOnly cs
  | [], cs, h => by
    simp [tryFromAux] at h
    subst h
    intro c hc
    simp at hc
  | v :: rest, cs, h => by
    simp only [tryFromAux] at h
    cases hp : presetOf v with
    | none => simp [hp] at h
    | some block =>
      cases hr : tryFromAux rest with
      | none => simp [hp, hr] at h
      | some cs2 =>
        simp [hp, hr] at h
        subst h
        intro c hc
        rcases List.mem_append.mp hc with hc | hc
        · exact presetOf_ascii hp c hc
        · exact tryFromAux_ascii hr c hc

theorem try_from_ascii {l : List Nat} {cs : List Char}
    (h : try_from l = some cs) : AsciiOnly cs := by
  unfold try_from at h
  cases ha : tryFromAux l with
  | none => rw [ha] at h; simp at h
  | some cs2 =>
    rw [ha] at h
    by_cases he : cs2 = []
    · simp [he] at h
    · simp [he] at h
      exact h ▸ tryFromAux_ascii ha

theorem try_from_ne_nil {l : List Nat} {cs : List Char}
    (h : try_from l = some cs) : cs ≠ [] := by
  unfold try_from at h
  cases ha : tryFromAux l with
  | none => rw [ha] at h; simp at h
  | some cs2 =>
    rw [ha] at h
    by_cases he : cs2 = []
    · simp [he] at h
    · simp [he] at h
      exact h ▸ he

theorem tryFromAux_valid : ∀ {l : List Nat}, (∀ v ∈ l, v < 4) →
    tryFromAux l = some ((l.map (fun v => (presetOf v).getD [])).flatten)
  | [], _ => rfl
  | v :: rest, h => by
    have hv : v < 4 := h v (List.mem_cons_self v rest)
    rcases hps : presetOf v with _ | block
    · exfalso
      revert hps
      interval_cases v <;> simp [presetOf]
    · have hr := tryFromAux_valid
        (fun a ha => h a (List.mem_cons_of_mem v ha))
      simp only [tryFromAux, hps, hr]
      simp [hps]

theorem tryFromAux_invalid : ∀ {l : List Nat} {v : Nat}, v ∈ l → 4 ≤ v →
    tryFromAux l = none
  | [], v, hm, _ => by simp at hm
  | w :: rest, v, hm, hv => by
    rcases List.mem_cons.mp hm with rfl | hm
    · have hp : presetOf v = none := by
        unfold presetOf
        rw [if_neg (by omega), if_neg (by omega), if_neg (by omega),
          if_neg (by omega)]
      simp [tryFromAux, hp]
    · have hr := tryFromAux_invalid hm hv
      simp only [tryFromAux, hr]
      cases presetOf w <;> rfl

end CharSet

/-! ### Helper lemmas: password character mapping -/

namespace DerivedPass

theorem get_password_char_spec {A : List Char} (hA : AsciiOnly A)
    (hne : A ≠ []) (b : Nat) :
    get_password_char A b = A.get? (b % A.length) ∧
      ∃ c, get_password_char A b = some c ∧ c ∈ A := by
  have hpos : 0 < A.length := List.length_pos.mpr hne
  have hidx : b % A.length < A.length := Nat.mod_lt _ hpos
  have h1 : get_password_char A b = A.get? (b % A.length) := by
    unfold get_password_char
    rw [strLen_ascii hA]
  refine ⟨h1, A.get ⟨b % A.length, hidx⟩, ?_, List.get_mem A _ hidx⟩
  rw [h1]
  exact List.get?_eq_get hidx

/-- Behaviour of `DerivedPass::new` on a sufficiently long secret and an
alphabet produced by `CharSet::try_from`. -/
theorem new_spec {A : List Char} {ss : List Nat} {pl : Nat}
    (hA : AsciiOnly A) (hne : A ≠ []) (hlen : pl ≤ ss.length) :
    ∃ out, new ss A pl = some out ∧ out.length = pl ∧
      (∀ i, i < pl → out.get? i = A.get? (ss.getD i 0 % A.length)) ∧
      ∀ c ∈ out, c ∈ A := by
  have hpos : 0 < A.length := List.length_pos.mpr hne
  have hmap : ∀ a ∈ List.range pl,
      (ss.get? a).bind (get_password_char A) =
        some (A.get ⟨ss.getD a 0 % A.length, Nat.mod_lt _ hpos⟩) := by
    intro a ha
    have halt : a < ss.length := lt_of_lt_of_le (List.mem_range.mp ha) hlen
    have hget : ss.get? a = some (ss.getD a 0) := by
      rw [List.get?_eq_get halt]
      simp [List.getD_eq_getElem?_getD, List.getElem?_eq_getElem halt]
    rw [hget]
    show get_password_char A (ss.getD a 0) =
      some (A.get ⟨ss.getD a 0 % A.length, Nat.mod_lt _ hpos⟩)
    rw [(get_password_char_spec hA hne (ss.getD a 0)).1]
    exact List.get?_eq_get (Nat.mod_lt _ hpos)
  have htrav := Utils.optTraverse_map _
    (fun a => A.get ⟨ss.getD a 0 % A.length, Nat.mod_lt _ hpos⟩)
    (List.range pl) hmap
  refine ⟨List.map (fun a => A.get ⟨ss.getD a 0 % A.length, Nat.mod_lt _ hpos⟩)
    (List.range pl), ?_, ?_, ?_, ?_⟩
  · unfold new
    rw [if_neg (by omega)]
    exact htrav
  · simp
  · intro i hi
    rw [List.get?_map, List.get?_range (by simpa using hi),
      List.get?_eq_get (Nat.mod_lt _ hpos)]
    rfl
  · intro c hc
    rcases List.mem_map.mp hc with ⟨a, _, rfl⟩
    exact List.get_mem A _ _

end DerivedPass

/-! ### Claims -/

/-- Claim C1: for every service secret with at least `password_length`
bytes and every `CharSet` alphabet `A`, `DerivedPass::new` succeeds and its
`i`-th character is `A[b_i mod |A|]` where `b_i` is the `i`-th raw byte of
the secret; with fewer bytes than `password_length` it fails with
`CharError`. -/
theorem claim_C1 (l : List Nat) (A : List Char) (ss : List Nat) (pl : Nat)
    (hA : CharSet.try_from l = some A) (hb : ∀ x ∈ ss, x < 256) :
    (pl ≤ ss.length →
      ∃ out, DerivedPass.new ss A pl = some out ∧ out.length = pl ∧
        ∀ i, i < pl → out.get? i = A.get? (ss.getD i 0 % A.length)) ∧
    (ss.length < pl → DerivedPass.new ss A pl = none) := by
  constructor
  · intro hlen
    obtain ⟨out, h1, h2, h3, -⟩ := DerivedPass.new_spec
      (CharSet.try_from_ascii hA) (CharSet.try_from_ne_nil hA) hlen
    exact ⟨out, h1, h2, h3⟩
  · intro hlt
    unfold DerivedPass.new
    rw [if_pos hlt]

theorem claim_C1_witness :
    DerivedPass.new (List.range 64) SMALL_LETTERS 70 = none ∧
      (DerivedPass.new (List.range 64) SMALL_LETTERS 27).isSome = true := by
  have h27 := claim_C1 [0] SMALL_LETTERS (List.range 64) 27 (by decide)
    (by decide)
  have h70 := claim_C1 [0] SMALL_LETTERS (List.range 64) 70 (by decide)
    (by decide)
  refine ⟨h70.2 (by decide), ?_⟩
  obtain ⟨out, ho, -, -⟩ := h27.1 (by decide)
  rw [ho]
  rfl

/-- Claim C2: `ServiceSecret::new` is HMAC-SHA-512 keyed with the 64 ASCII
bytes of the lowercase hex encoding of the 32-byte master secret, over the
ASCII bytes of `base64_standard_nopad(LI || I || PL || G)` where `LI` is
the decimal byte length of the service id and `PL`, `G` are the decimal
strings of password length and generation; the result is the 64-byte
tag. -/
theorem claim_C2 (m : List Nat) (s : List Char) (g pl : Nat)
    (hm : m.length = 32) (hb : ∀ x ∈ m, x < 256) :
    ServiceSecret.new m s g pl =
      some (hmacSha512 (Utils.bytes_to_hex m)
        (base64NoPad (natDecBytes (strBytes s).length ++ strBytes s ++
          natDecBytes pl ++ natDecBytes g))) ∧
    (Utils.bytes_to_hex m).length = 64 ∧
    (∀ x ∈ Utils.bytes_to_hex m, Utils.LowerHexByte x) ∧
    ∀ ss, ServiceSecret.new m s g pl = some ss → ss.length = 64 := by
  refine ⟨rfl, ?_, Utils.bytes_to_hex_lower hb, ?_⟩
  · rw [Utils.bytes_to_hex_length, hm]
  · intro ss h
    rw [show ServiceSecret.new m s g pl =
      some (hmacSha512 (Utils.bytes_to_hex m)
        (base64NoPad (natDecBytes (strBytes s).length ++ strBytes s ++
          natDecBytes pl ++ natDecBytes g))) from rfl] at h
    cases h
    exact hmacSha512_length _ _

theorem claim_C2_witness :
    (Utils.bytes_to_hex (List.replicate 32 0)).length = 64 :=
  (claim_C2 (List.replicate 32 0) [] 1 1 (by decide) (by decide)).2.1

/-- Claim C3: `MasterSecret::new` invokes Argon2id version 0x13 with
memory cost 32768 KiB, time cost 4, parallelism 4 and a 32-byte tag, over
the master password, with the salt string
`base64_standard_nopad(L || U)` where `L` is the decimal byte length of
the user id `U`; it returns the 32-byte tag.  The Argon2 primitive is
external, so the theorem holds for every tag-length-respecting
primitive. -/
theorem claim_C3 (argon2 : MasterSecret.Argon2Fun)
    (hlen : ∀ v mc tc pc o pw salt, (argon2 v mc tc pc o pw salt).length = o)
    (u p : List Char) (hu : 8 ≤ strLen u) (hp : 8 ≤ strLen p) :
    MasterSecret.new argon2 u p =
      some (argon2 0x13 32768 4 4 32 (strBytes p)
        (base64NoPad (natDecBytes (strBytes u).length ++ strBytes u))) ∧
    ∀ ms, MasterSecret.new argon2 u p = some ms → ms.length = 32 := by
  refine ⟨rfl, ?_⟩
  intro ms h
  rw [show MasterSecret.new argon2 u p =
    some (argon2 0x13 32768 4 4 32 (strBytes p)
      (base64NoPad (natDecBytes (strBytes u).length ++ strBytes u)))
    from rfl] at h
  cases h
  exact hlen _ _ _ _ _ _ _

theorem claim_C3_witness :
    (MasterSecret.new (fun _ _ _ _ o _ _ => List.replicate o 0)
      ("abcdefgh".toList) ("abcdefgh".toList)).isSome = true ∧
    (List.replicate 32 (0 : Nat)).length = 32 := by
  have h := claim_C3 (fun _ _ _ _ o _ _ => List.replicate o 0)
    (fun _ _ _ _ o _ _ => List.length_replicate o 0)
    ("abcdefgh".toList) ("abcdefgh".toList) (by decide) (by decide)
  exact ⟨by rw [h.1]; rfl, h.2 _ (h.1.trans rfl)⟩

/-- Claim C4: the pipeline is deterministic and pure: `DerivePassRunner::run`
returns equal results on input tuples whose six components are equal. -/
theorem claim_C4 (argon2 : MasterSecret.Argon2Fun) (ui1 ui2 : UserInput)
    (h1 : ui1.user_id = ui2.user_id)
    (h2 : ui1.master_password_plain = ui2.master_password_plain)
    (h3 : ui1.service_id = ui2.service_id)
    (h4 : ui1.generation = ui2.generation)
    (h5 : ui1.char_set = ui2.char_set)
    (h6 : ui1.password_length = ui2.password_length) :
    DerivePassRunner.run argon2 ui1 = DerivePassRunner.run argon2 ui2 := by
  cases ui1
  cases ui2
  simp_all

theorem claim_C4_witness :
    DerivePassRunner.run (fun _ _ _ _ o _ _ => List.replicate o 0)
        ⟨"abcdefgh".toList, "abcdefgh".toList, [], 1, SMALL_LETTERS, 1⟩ =
      DerivePassRunner.run (fun _ _ _ _ o _ _ => List.replicate o 0)
        ⟨"abcdefgh".toList, "abcdefgh".toList, [], 1, SMALL_LETTERS, 1⟩ :=
  claim_C4 (fun _ _ _ _ o _ _ => List.replicate o 0) _ _ rfl rfl rfl rfl rfl rfl

/-- Claim C5: on every valid input tuple (validated `CharSet`, password
length between 1 and 64), `DerivePassRunner::run` succeeds and returns a
string of exactly `password_length` characters, each drawn from the
`CharSet` alphabet. -/
theorem claim_C5 (argon2 : MasterSecret.Argon2Fun) (ui : UserInput)
    (l : List Nat) (hcs : CharSet.try_from l = some ui.char_set)
    (hpl1 : 1 ≤ ui.password_length) (hpl2 : ui.password_length ≤ 64) :
    ∃ out, DerivePassRunner.run argon2 ui = some out ∧
      out.length = ui.password_length ∧ ∀ c ∈ out, c ∈ ui.char_set := by
  have hlen64 : (hmacSha512
      (Utils.bytes_to_hex (argon2 19 (32 * 1024) 4 4 32
        (strBytes ui.master_password_plain)
        (base64NoPad (natDecBytes (strLen ui.user_id) ++ strBytes ui.user_id))))
      (base64NoPad (natDecBytes (strLen ui.service_id) ++
        strBytes ui.service_id ++ natDecBytes ui.password_length ++
        natDecBytes ui.generation))).length = 64 := hmacSha512_length _ _
  obtain ⟨out, h1, h2, -, h4⟩ := @DerivedPass.new_spec ui.char_set
    (hmacSha512
      (Utils.bytes_to_hex (argon2 19 (32 * 1024) 4 4 32
        (strBytes ui.master_password_plain)
        (base64NoPad (natDecBytes (strLen ui.user_id) ++ strBytes ui.user_id))))
      (base64NoPad (natDecBytes (strLen ui.service_id) ++
        strBytes ui.service_id ++ natDecBytes ui.password_length ++
        natDecBytes ui.generation)))
    ui.password_length
    (CharSet.try_from_ascii hcs) (CharSet.try_from_ne_nil hcs)
    (by rw [hlen64]; exact hpl2)
  exact ⟨out, h1, h2, h4⟩

theorem claim_C5_witness :
    (DerivePassRunner.run (fun _ _ _ _ o _ _ => List.replicate o 0)
      ⟨"abcdefgh".toList, "abcdefgh".toList, [], 1, SMALL_LETTERS, 1⟩).isSome
      = true := by
  obtain ⟨out, h1, -, -⟩ := claim_C5 (fun _ _ _ _ o _ _ => List.replicate o 0)
    ⟨"abcdefgh".toList, "abcdefgh".toList, [], 1, SMALL_LETTERS, 1⟩ [0]
    (by decide) (by decide) (by decide)
  rw [h1]
  rfl

/-- Claim C6: `CharSet::try_from` returns the concatenation of the fixed
preset strings in caller order with duplicates kept when every index is in
0..=3 and the list is non-empty; it fails on an out-of-range index or an
empty list; and the alphabets of `[0,1]` and `[1,0]` differ. -/
theorem claim_C6 :
    (∀ l : List Nat, (∀ v ∈ l, v < 4) → l ≠ [] →
      CharSet.try_from l =
        some ((l.map (fun v => (CharSet.presetOf v).getD [])).flatten)) ∧
    (∀ (l : List Nat) (v : Nat), v ∈ l → 4 ≤ v →
      CharSet.try_from l = none) ∧
    CharSet.try_from [] = none ∧
    CharSet.presetOf 0 = some SMALL_LETTERS ∧
    CharSet.presetOf 1 = some CAPITAL_LETTERS ∧
    CharSet.presetOf 2 = some NUMBERS ∧
    CharSet.presetOf 3 = some SPECIAL_CHARS ∧
    SPECIAL_CHARS.length = 32 ∧
    CharSet.try_from [0, 1] ≠ CharSet.try_from [1, 0] := by
  refine ⟨?_, ?_, by decide, rfl, rfl, rfl, rfl, by decide, by decide⟩
  · intro l hv hne
    have hflat : (l.map (fun v => (CharSet.presetOf v).getD [])).flatten ≠ [] := by
      cases l with
      | nil => exact absurd rfl hne
      | cons v0 rest =>
        have hv0 : v0 < 4 := hv v0 (List.mem_cons_self _ _)
        rcases hps : CharSet.presetOf v0 with _ | block
        · exfalso
          revert hps
          interval_cases v0 <;> simp [CharSet.presetOf]
        · have hbne := CharSet.presetOf_ne_nil hps
          simp only [List.map_cons, List.flatten_cons, hps, Option.getD_some]
          intro hcontra
          exact hbne (List.append_eq_nil.mp hcontra).1
    unfold CharSet.try_from
    rw [CharSet.tryFromAux_valid hv]
    simp [hflat]
  · intro l v hm hv
    unfold CharSet.try_from
    rw [CharSet.tryFromAux_invalid hm hv]
    rfl

theorem claim_C6_witness :
    CharSet.try_from [2] = some NUMBERS ∧ CharSet.try_from [7] = none := by
  constructor
  · have h := claim_C6.1 [2] (by decide) (by decide)
    simpa using h
  · exact claim_C6.2.1 [7] 7 (by decide) (by decide)

/-- Claim C7: every successfully constructed `MasterSecret` holds 32 bytes
and every successfully constructed `ServiceSecret` holds 64 bytes, through
the derivation constructors and the hex-string `from_str` constructors. -/
theorem claim_C7 :
    (∀ argon2 : MasterSecret.Argon2Fun,
      (∀ v mc tc pc o pw salt, (argon2 v mc tc pc o pw salt).length = o) →
      ∀ u p ms, MasterSecret.new argon2 u p = some ms → ms.length = 32) ∧
    (∀ m s g pl ss, ServiceSecret.new m s g pl = some ss →
      ss.length = 64) ∧
    (∀ s ms, MasterSecret.from_str s = some ms → ms.length = 32) ∧
    (∀ s ss, ServiceSecret.from_str s = some ss → ss.length = 64) := by
  refine ⟨?_, ?_, ?_, ?_⟩
  · intro argon2 hlen u p ms h
    rw [show MasterSecret.new argon2 u p =
      some (argon2 19 (32 * 1024) 4 4 32 (strBytes p)
        (base64NoPad (natDecBytes (strLen u) ++ strBytes u)))
      from rfl] at h
    cases h
    exact hlen _ _ _ _ _ _ _
  · intro m s g pl ss h
    rw [show ServiceSecret.new m s g pl =
      some (hmacSha512 (Utils.bytes_to_hex m)
        (base64NoPad (natDecBytes (strLen s) ++ strBytes s ++
          natDecBytes pl ++ natDecBytes g))) from rfl] at h
    cases h
    exact hmacSha512_length _ _
  · intro s ms h
    unfold MasterSecret.from_str at h
    by_cases h64 : s.length = 64
    · rw [if_pos h64] at h
      have := Utils.hex_to_bytes_some_length h
      omega
    · rw [if_neg h64] at h
      simp at h
  · intro s ss h
    unfold ServiceSecret.from_str at h
    by_cases h128 : s.length = 128
    · rw [if_pos h128] at h
      have := Utils.hex_to_bytes_some_length h
      omega
    · rw [if_neg h128] at h
      simp at h

theorem claim_C7_witness :
    (List.replicate 32 (0 : Nat)).length = 32 ∧
    (hmacSha512 (Utils.bytes_to_hex [])
      (base64NoPad (natDecBytes (strLen ([] : List Char)) ++
        strBytes ([] : List Char) ++ natDecBytes 1 ++
        natDecBytes 1))).length = 64 ∧
    (List.replicate 32 (170 : Nat)).length = 32 ∧
    (List.replicate 64 (170 : Nat)).length = 64 := by
  refine ⟨?_, ?_, ?_, ?_⟩
  · exact claim_C7.1 (fun _ _ _ _ o _ _ => List.replicate o 0)
      (fun _ _ _ _ o _ _ => List.length_replicate o 0) [] [] _ rfl
  · exact claim_C7.2.1 [] [] 1 1 _ rfl
  · exact claim_C7.2.2.1 (strBytes (List.replicate 64 'a'))
      (List.replicate 32 170) (by decide)
  · exact claim_C7.2.2.2 (strBytes (List.replicate 128 'a'))
      (List.replicate 64 170) (by decide)

/-- Claim C8: hex round-trip: `hex_to_bytes(bytes_to_hex(b)) == b`, and
`bytes_to_hex(b)` has length `2·|b|` and contains only lowercase hex digit
characters (two zero-padded digits per byte, no separators). -/
theorem claim_C8 (b : List Nat) (hb : ∀ x ∈ b, x < 256) :
    Utils.hex_to_bytes (Utils.bytes_to_hex b) = some b ∧
    (Utils.bytes_to_hex b).length = 2 * b.length ∧
    ∀ x ∈ Utils.bytes_to_hex b, Utils.LowerHexByte x :=
  ⟨Utils.hex_roundtrip hb, Utils.bytes_to_hex_length b,
    Utils.bytes_to_hex_lower hb⟩

theorem claim_C8_witness :
    Utils.hex_to_bytes (Utils.bytes_to_hex [0, 255, 16]) = some [0, 255, 16] :=
  (claim_C8 [0, 255, 16] (by decide)).1

/-- Claim C9: `hex_to_bytes(s)` returns a byte sequence of length `|s|/2`
whose `k`-th byte is the parse of the `k`-th 2-byte window exactly when the
byte length of `s` is even and every window `s.get(2k..2k+2)` parses under
`u8::from_str_radix(_, 16)`; otherwise it returns `none`. -/
theorem claim_C9 (cs : List Char) (s : List Nat) (hs : s = strBytes cs) :
    (∀ l, Utils.hex_to_bytes s = some l ↔
      (s.length % 2 = 0 ∧ l.length = s.length / 2 ∧
        ∀ k, k < s.length / 2 →
          (Utils.strGet s (2 * k) (2 * k + 2)).bind Utils.u8FromStrRadix16 =
            l.get? k)) ∧
    ((Utils.hex_to_bytes s).isSome = true ↔
      (s.length % 2 = 0 ∧ ∀ k, k < s.length / 2 →
        ((Utils.strGet s (2 * k) (2 * k + 2)).bind
          Utils.u8FromStrRadix16).isSome = true)) := by
  have hpart1 : ∀ l, Utils.hex_to_bytes s = some l ↔
      (s.length % 2 = 0 ∧ l.length = s.length / 2 ∧
        ∀ k, k < s.length / 2 →
          (Utils.strGet s (2 * k) (2 * k + 2)).bind Utils.u8FromStrRadix16 =
            l.get? k) := by
    intro l
    constructor
    · intro h
      unfold Utils.hex_to_bytes at h
      by_cases he : s.length % 2 = 0
      · rw [if_pos he] at h
        refine ⟨he, by simpa using Utils.optTraverse_some_length h, ?_⟩
        intro k hk
        have hg := Utils.optTraverse_some_get? h k
        rw [List.get?_range hk] at hg
        simpa using hg.symm
      · rw [if_neg he] at h
        simp at h
    · rintro ⟨he, hlen, hwin⟩
      unfold Utils.hex_to_bytes
      rw [if_pos he]
      apply Utils.optTraverse_eq_some_of
      · simpa using hlen
      · intro k hk
        rw [List.length_range] at hk
        rw [List.get?_range hk]
        simpa using hwin k hk
  refine ⟨hpart1, ?_, ?_⟩
  · intro h
    rcases Option.isSome_iff_exists.mp h with ⟨l, hl⟩
    obtain ⟨he, hlen, hwin⟩ := (hpart1 l).mp hl
    refine ⟨he, ?_⟩
    intro k hk
    have hk2 : k < l.length := by omega
    rw [hwin k hk, List.get?_eq_get hk2]
    rfl
  · rintro ⟨he, hwin⟩
    unfold Utils.hex_to_bytes
    rw [if_pos he, Utils.optTraverse_isSome_iff]
    intro a ha
    exact hwin a (List.mem_range.mp ha)

theorem claim_C9_witness :
    (Utils.hex_to_bytes (strBytes "7a".toList)).isSome = true ∧
      Utils.hex_to_bytes (strBytes "7g".toList) = none ∧
      Utils.hex_to_bytes (strBytes "-0".toList) = none := by
  refine ⟨((claim_C9 "7a".toList _ rfl).2).mpr (by decide), ?_, ?_⟩
  · cases hval : Utils.hex_to_bytes (strBytes "7g".toList) with
    | none => rfl
    | some l =>
      obtain ⟨-, hlen, hwin⟩ := ((claim_C9 "7g".toList _ rfl).1 l).mp hval
      have hw := hwin 0 (by decide)
      simp only [show (2 : Nat) * 0 = 0 from rfl] at hw
      rw [show Utils.strGet (strBytes "7g".toList) 0 (0 + 2) = some [55, 103]
        from by decide] at hw
      rw [show (some [55, 103]).bind Utils.u8FromStrRadix16 = none
        from by decide] at hw
      have hl0 : l.get? 0 = none := hw.symm
      rw [List.get?_eq_none] at hl0
      rw [show (strBytes "7g".toList).length = 2 from by decide] at hlen
      omega
  · cases hval : Utils.hex_to_bytes (strBytes "-0".toList) with
    | none => rfl
    | some l =>
      obtain ⟨-, hlen, hwin⟩ := ((claim_C9 "-0".toList _ rfl).1 l).mp hval
      have hw := hwin 0 (by decide)
      simp only [show (2 : Nat) * 0 = 0 from rfl] at hw
      rw [show Utils.strGet (strBytes "-0".toList) 0 (0 + 2) = some [45, 48]
        from by decide] at hw
      rw [show (some [45, 48]).bind Utils.u8FromStrRadix16 = none
        from by decide] at hw
      have hl0 : l.get? 0 = none := hw.symm
      rw [List.get?_eq_none] at hl0
      rw [show (strBytes "-0".toList).length = 2 from by decide] at hlen
      omega

/-- Claim C10: every `CharSet` built by `try_from` has a non-empty,
all-ASCII alphabet; hence in `get_password_char` the byte-length divisor is
never zero, the byte length equals the character count, and the `CharError`
branch is unreachable. -/
theorem claim_C10 (l : List Nat) (A : List Char)
    (h : CharSet.try_from l = some A) :
    A ≠ [] ∧ AsciiOnly A ∧ strLen A = A.length ∧ 0 < strLen A ∧
      ∀ b, (DerivedPass.get_password_char A b).isSome = true := by
  have hne := CharSet.try_from_ne_nil h
  have ha := CharSet.try_from_ascii h
  have hsl := strLen_ascii ha
  refine ⟨hne, ha, hsl, ?_, ?_⟩
  · rw [hsl]
    exact List.length_pos.mpr hne
  · intro b
    obtain ⟨-, c, hc, -⟩ := DerivedPass.get_password_char_spec ha hne b
    rw [hc]
    rfl

theorem claim_C10_witness :
    SMALL_LETTERS ≠ [] ∧ strLen SMALL_LETTERS = SMALL_LETTERS.length ∧
      (DerivedPass.get_password_char SMALL_LETTERS 300).isSome = true := by
  have h := claim_C10 [0] SMALL_LETTERS (by decide)
  exact ⟨h.1, h.2.2.1, h.2.2.2.2 300⟩
